import Mathlib

/-!
Verification of the caching and analysis-memoization layer of a chess games
analyzer. The definitions below are a shallow embedding of the TypeScript
source: `CacheService.ts` (the SQLite `games` and `analysis` tables and the
in-memory profile and monthly-games caches), `ChessComService.getMonthlyGames`,
the per-game loop of the `/api/analyze` handler, and
`GameAnalyzer.analyzeGame` together with `calculateMoveAccuracy`.

Times are epoch milliseconds modelled as `Nat`; the JavaScript `Map` is
modelled as an association list with first-match lookup; the SQLite tables
are modelled as row lists where `INSERT OR REPLACE` removes the rows sharing
the primary key of the inserted row. External collaborators (chess.js
parsing, the move evaluator, the network fetch, epoch-to-calendar
conversion) are parameters of the definitions that use them.
-/

namespace ChessCache

/-- Model of `String.prototype.toLowerCase` (character-wise lowering). -/
def jsToLower (s : String) : String := ⟨s.data.map Char.toLower⟩

/-- Model of `String.prototype.startsWith`. -/
def jsStartsWith (s pre : String) : Bool := pre.data.isPrefixOf s.data

/-- Model of the JavaScript `Map.prototype.get`: first entry with the key. -/
def mget {β : Type} (c : List (String × β)) (k : String) : Option β :=
  (c.find? (fun p => p.1 == k)).map Prod.snd

/-- Model of `Map.prototype.set`: the new binding replaces any old one. -/
def mset {β : Type} (c : List (String × β)) (k : String) (v : β) :
    List (String × β) :=
  (k, v) :: c.filter (fun p => p.1 != k)

/-- Model of `Map.prototype.delete`. -/
def mdel {β : Type} (c : List (String × β)) (k : String) : List (String × β) :=
  c.filter (fun p => p.1 != k)

theorem mget_mset_self {β : Type} (c : List (String × β)) (k : String) (v : β) :
    mget (mset c k v) k = some v := by
  simp [mget, mset, List.find?]

theorem mget_mdel_self {β : Type} (c : List (String × β)) (k : String) :
    mget (mdel c k) k = none := by
  induction c with
  | nil => rfl
  | cons p c ih =>
    by_cases h : p.1 = k
    · simp only [mdel, List.filter, show (p.1 != k) = false by simp [h]]
      exact ih
    · simp only [mdel, List.filter, show (p.1 != k) = true by simp [h], mget,
        List.find?, show (p.1 == k) = false by simp [h]]
      exact ih

theorem mget_mem {β : Type} {c : List (String × β)} {k : String} {v : β}
    (h : mget c k = some v) : (k, v) ∈ c := by
  induction c with
  | nil => simp [mget] at h
  | cons p c ih =>
    by_cases hk : p.1 = k
    · simp only [mget, List.find?, hk, beq_self_eq_true, Option.map_some] at h
      obtain ⟨k', v'⟩ := p
      have hv : v' = v := by simpa using h
      have hk' : k' = k := hk
      subst hv
      subst hk'
      exact List.mem_cons_self _ _
    · have hne : (p.1 == k) = false := by simpa using hk
      simp only [mget, List.find?, hne] at h
      exact List.mem_cons_of_mem _ (ih h)

/-! ### The SQLite `analysis` table

The DDL in `CacheService.initializeDatabase` declares
`game_uuid TEXT PRIMARY KEY` with a `username` column beside it, so the
primary key of one stored analysis row is the game uuid alone. -/

/-- One row of the `analysis` table. `game_uuid` is the PRIMARY KEY. -/
structure AnalysisRow (α : Type) where
  game_uuid : String
  username : String
  analysis_data : α
deriving DecidableEq, Repr

/-- The `analysis` table contents. -/
abbrev AnalysisTable (α : Type) : Type := List (AnalysisRow α)

/-- `INSERT OR REPLACE` on the `analysis` table: the inserted row displaces
every row with the same primary key `game_uuid`. -/
def insertOrReplaceAnalysis {α : Type} (t : AnalysisTable α)
    (r : AnalysisRow α) : AnalysisTable α :=
  r :: List.filter (fun q => q.game_uuid != r.game_uuid) t

/-- `CacheService.cacheAnalysis`: upsert with the username lowercased. -/
def cacheAnalysis {α : Type} (t : AnalysisTable α) (gameUuid username : String)
    (analysis : α) : AnalysisTable α :=
  insertOrReplaceAnalysis t ⟨gameUuid, (jsToLower username), analysis⟩

/-- `CacheService.getCachedAnalysis`: the SELECT filters on both the game
uuid and the lowercased username. -/
def getCachedAnalysis {α : Type} (t : AnalysisTable α)
    (gameUuid username : String) : Option α :=
  (List.find? (fun r => r.game_uuid == gameUuid && r.username == jsToLower username) t).map
    (fun r => r.analysis_data)

/-- `CacheService.getCachedAnalyses`: bulk SELECT of the rows whose username
matches (lowercased) and whose game uuid is in the requested list, collected
into a uuid-keyed map. -/
def getCachedAnalyses {α : Type} (t : AnalysisTable α) (username : String)
    (gameUuids : List String) : List (String × α) :=
  (List.filter
      (fun r => r.username == (jsToLower username) && gameUuids.contains r.game_uuid) t).map
    (fun r => (r.game_uuid, r.analysis_data))

/-- Rows with game uuid `g` remaining in the table after an upsert number
exactly one when the upsert was for `g` itself. -/
theorem countRows_cacheAnalysis_self {α : Type} (t : AnalysisTable α)
    (g u : String) (a : α) :
    (List.countP (fun r => r.game_uuid == g) (cacheAnalysis t g u a)) = 1 := by
  simp only [cacheAnalysis, insertOrReplaceAnalysis, List.countP_cons,
    beq_self_eq_true, if_pos, List.countP_eq_zero]
  have hz :
      List.countP (fun r => r.game_uuid == g)
        (List.filter (fun q => q.game_uuid != g) t) = 0 := by
    rw [List.countP_eq_zero]
    intro r hr
    have := List.of_mem_filter hr
    simp only [bne_iff_ne, ne_eq, decide_eq_true_eq] at this ⊢
    simpa using this
  omega

theorem getCachedAnalysis_cacheAnalysis_self {α : Type} (t : AnalysisTable α)
    (g u : String) (a : α) :
    getCachedAnalysis (cacheAnalysis t g u a) g u = some a := by
  simp [getCachedAnalysis, cacheAnalysis, insertOrReplaceAnalysis, List.find?]

theorem getCachedAnalysis_cacheAnalysis_ne {α : Type} (t : AnalysisTable α)
    {g g' : String} (u u' : String) (a : α) (hg : g' ≠ g) :
    getCachedAnalysis (cacheAnalysis t g u a) g' u'
      = getCachedAnalysis t g' u' := by
  simp only [getCachedAnalysis, cacheAnalysis, insertOrReplaceAnalysis,
    List.find?]
  have hne : (g == g') = false := by
    simpa [beq_eq_false_iff_ne] using fun h => hg h.symm
  simp only [hne, Bool.false_and]
  congr 1
  induction t with
  | nil => rfl
  | cons r t ih =>
    by_cases hr : r.game_uuid = g
    · have h1 : (r.game_uuid != g) = false := by simp [hr]
      have h2 : (r.game_uuid == g') = false := by
        simp [hr]
        exact fun h => hg h.symm
      simp [List.filter, List.find?, h1, h2, ih]
    · have h1 : (r.game_uuid != g) = true := by simp [hr]
      simp only [List.filter, h1, List.find?]
      cases hmatch : (r.game_uuid == g' && r.username == jsToLower u') <;>
        simp [hmatch, ih]

end ChessCache

namespace ChessCache

/-! ### Cache entries and TTL constants (`CacheService`) -/

/-- The `CacheEntry<T>` shape of `CacheService`. -/
structure CacheEntry (α : Type) where
  data : α
  timestamp : Nat
  expiresAt : Nat
deriving DecidableEq, Repr

/-- `USER_PROFILE_TTL`: one hour in milliseconds. -/
def USER_PROFILE_TTL : Nat := 3600000

/-- `MONTHLY_GAMES_TTL`: 24 hours in milliseconds. -/
def MONTHLY_GAMES_TTL : Nat := 86400000

/-- The literal five-minute window used for current-month entries in
`getCachedMonthlyGames`. -/
def CURRENT_MONTH_TTL : Nat := 300000

/-! ### User profile cache (in-memory, short-term) -/

/-- `CacheService.getCachedUserProfile`; returns the read result and the
cache after the read (the read deletes an expired entry). -/
def getCachedUserProfile {α : Type} (c : List (String × CacheEntry α))
    (username : String) (now : Nat) :
    Option α × List (String × CacheEntry α) :=
  match mget c (jsToLower username) with
  | none => (none, c)
  | some cached =>
    if now > cached.expiresAt then (none, mdel c (jsToLower username))
    else (some cached.data, c)

/-- `CacheService.cacheUserProfile`. -/
def cacheUserProfile {α : Type} (c : List (String × CacheEntry α))
    (username : String) (profile : α) (now : Nat) :
    List (String × CacheEntry α) :=
  mset c (jsToLower username) ⟨profile, now, now + USER_PROFILE_TTL⟩

/-- `CacheService.clearUserProfileCache`. -/
def clearUserProfileCache {α : Type} (c : List (String × CacheEntry α)) :
    Option String → List (String × CacheEntry α)
  | some username => mdel c (jsToLower username)
  | none => []

/-! ### Raw games and the monthly games cache -/

/-- The fields of a raw `ChessComGame` that the caching layer inspects,
plus the opaque movetext payload. -/
structure CCGame where
  uuid : String
  end_time : Nat
  pgn : String
deriving DecidableEq, Repr

/-- The cache key of `getCachedMonthlyGames` and `cacheMonthlyGames`:
the template string of the source. -/
def monthlyKey (username : String) (year month : Nat) : String :=
  (jsToLower username) ++ "_" ++ toString year ++ "_" ++ toString month

/-- `CacheService.getCachedMonthlyGames`: the TTL class of a cached entry is
decided at read time, by comparing the requested `(year, month)` with the
calendar year and month current at the read. Returns the read result and the
cache after the read. -/
def getCachedMonthlyGames (c : List (String × CacheEntry (List CCGame)))
    (username : String) (year month : Nat) (now currentYear currentMonth : Nat) :
    Option (List CCGame) × List (String × CacheEntry (List CCGame)) :=
  let key := monthlyKey username year month
  match mget c key with
  | none => (none, c)
  | some cached =>
    if year = currentYear ∧ month = currentMonth then
      if now > cached.timestamp + CURRENT_MONTH_TTL then (none, mdel c key)
      else (some cached.data, c)
    else
      if now > cached.expiresAt then (none, mdel c key)
      else (some cached.data, c)

/-- `CacheService.cacheMonthlyGames`. -/
def cacheMonthlyGames (c : List (String × CacheEntry (List CCGame)))
    (username : String) (year month : Nat) (games : List CCGame) (now : Nat) :
    List (String × CacheEntry (List CCGame)) :=
  mset c (monthlyKey username year month) ⟨games, now, now + MONTHLY_GAMES_TTL⟩

/-- `CacheService.clearMonthlyGamesCache`: a scoped clear collects and
deletes the keys that START WITH the lowercased username. -/
def clearMonthlyGamesCache (c : List (String × CacheEntry (List CCGame))) :
    Option String → List (String × CacheEntry (List CCGame))
  | some username => c.filter (fun p => !(jsStartsWith p.1 (jsToLower username)))
  | none => []

/-! ### The SQLite `games` table -/

/-- One row of the `games` table; `uuid` is the PRIMARY KEY. -/
structure GameRow where
  uuid : String
  username : String
  year : Nat
  month : Nat
  game_data : CCGame
  cached_at : Nat
deriving DecidableEq, Repr

/-- `CacheService.cacheGame`: `INSERT OR REPLACE` keyed by the game uuid,
with the username lowercased and year/month derived from `end_time` through
the Date library (`epochToYM`, an external collaborator), or zero when
`end_time` is falsy. -/
def cacheGame (epochToYM : Nat → Nat × Nat) (t : List GameRow) (game : CCGame)
    (username : String) (now : Nat) : List GameRow :=
  let ym := if game.end_time ≠ 0 then epochToYM game.end_time else (0, 0)
  ⟨game.uuid, (jsToLower username), ym.1, ym.2, game, now⟩ ::
    List.filter (fun r => r.uuid != game.uuid) t

/-- `CacheService.cacheGames`: one `cacheGame` per game. -/
def cacheGames (epochToYM : Nat → Nat × Nat) (t : List GameRow)
    (games : List CCGame) (username : String) (now : Nat) : List GameRow :=
  games.foldl (fun acc g => cacheGame epochToYM acc g username now) t

/-- `CacheService.getCachedGame`. -/
def getCachedGame (t : List GameRow) (uuid : String) : Option CCGame :=
  (List.find? (fun r => r.uuid == uuid) t).map (fun r => r.game_data)

/-- `CacheService.clearGameCache`: scoped form deletes the rows whose stored
username equals the lowercased argument; the no-argument form deletes all. -/
def clearGameCache (t : List GameRow) : Option String → List GameRow
  | some username => t.filter (fun r => r.username != jsToLower username)
  | none => []

/-- `CacheService.clearAnalysisCache`: same shape on the `analysis` table. -/
def clearAnalysisCache {α : Type} (t : AnalysisTable α) :
    Option String → AnalysisTable α
  | some username => List.filter (fun r => r.username != jsToLower username) t
  | none => []

/-! ### `ChessComService.getMonthlyGames` -/

/-- The cache state owned by `ChessComService`: the in-memory monthly cache
and the durable `games` table. -/
structure SvcState where
  monthly : List (String × CacheEntry (List CCGame))
  games : List GameRow
deriving DecidableEq, Repr

/-- `ChessComService.getMonthlyGames`, successful-fetch path: consult the
in-memory cache first; on a hit return it; on a miss take `fetched` (the
response of the external source), write it to the monthly cache and the
durable per-game store, and return it. The third component counts the
invocations of the external source (0 on a hit, 1 on a miss). -/
def getMonthlyGames (epochToYM : Nat → Nat × Nat) (s : SvcState)
    (username : String) (year month : Nat) (fetched : List CCGame)
    (now currentYear currentMonth : Nat) : List CCGame × SvcState × Nat :=
  match getCachedMonthlyGames s.monthly username year month now currentYear
      currentMonth with
  | (some cached, m') => (cached, ⟨m', s.games⟩, 0)
  | (none, m') =>
    let m2 := cacheMonthlyGames m' username year month fetched now
    let g2 := cacheGames epochToYM s.games fetched username now
    (fetched, ⟨m2, g2⟩, 1)

end ChessCache

namespace ChessCache

/-! ### The per-game loop of the `/api/analyze` handler

The handler fetches the cached analyses for all requested game uuids once,
before the loop, and then processes the games in input order inside a
per-game try/catch: parse the raw game (chess.js, may throw, modelled by
`Option`), serve a cached analysis if the prefetched map has one, otherwise
run the expensive move-by-move evaluation (may throw) and write the fresh
analysis through to the durable store before the next game. -/

/-- The mutable state of the handler loop. `computed` records the uuids of
the games on which the move-by-move evaluation was invoked, in invocation
order; `cachedCount` and `analyzedCount` are the counters of the source. -/
structure LoopState (α : Type) where
  analyses : List α
  table : AnalysisTable α
  computed : List String
  cachedCount : Nat
  analyzedCount : Nat

/-- One iteration of the handler loop for one raw game. -/
def processGame {α β : Type} (parse : CCGame → Option β)
    (analyze : β → Option α) (username : String)
    (cachedMap : String → Option α) (st : LoopState α) (raw : CCGame) :
    LoopState α :=
  match parse raw with
  | none => st
  | some game =>
    match cachedMap raw.uuid with
    | some a =>
      { st with analyses := st.analyses ++ [a],
                cachedCount := st.cachedCount + 1 }
    | none =>
      match analyze game with
      | none => st
      | some a =>
        { st with analyses := st.analyses ++ [a],
                  analyzedCount := st.analyzedCount + 1,
                  computed := st.computed ++ [raw.uuid],
                  table := cacheAnalysis st.table raw.uuid username a }

/-- The whole handler loop: prefetch the cached analyses of all requested
uuids from the durable table, then fold `processGame` over the games. -/
def runAnalyzeLoop {α β : Type} (parse : CCGame → Option β)
    (analyze : β → Option α) (username : String) (t0 : AnalysisTable α)
    (rawGames : List CCGame) : LoopState α :=
  let cachedMap := fun g =>
    mget (getCachedAnalyses t0 username (rawGames.map CCGame.uuid)) g
  rawGames.foldl (processGame parse analyze username cachedMap)
    ⟨[], t0, [], 0, 0⟩

/-! ### `GameAnalyzer.analyzeGame` accuracy aggregation -/

/-- The move classifications produced by `MoveAnalyzer.evaluateMove`. -/
inductive MoveClass where
  | excellent
  | good
  | inaccuracy
  | mistake
  | blunder
deriving DecidableEq, Repr

/-- The side to move, as in `GameAnalyzer.getPlayerColor`. -/
inductive PlayerColor where
  | white
  | black
deriving DecidableEq, Repr

/-- The fields of a parsed `Move` that the accuracy aggregation inspects. -/
structure MoveRec where
  san : String
  fen : String
  moveNumber : Nat
  isWhiteMove : Bool
deriving DecidableEq, Repr

/-- `GameAnalyzer.getPlayerColor`: strict equality on the white username. -/
def getPlayerColor (whiteUsername playerUsername : String) : PlayerColor :=
  if whiteUsername = playerUsername then .white else .black

/-- `GameAnalyzer.isPlayerMove`. -/
def isPlayerMove (mv : MoveRec) (playerColor : PlayerColor) : Bool :=
  (decide (playerColor = PlayerColor.white) && mv.isWhiteMove) ||
    (decide (playerColor = PlayerColor.black) && !mv.isWhiteMove)

/-- `GameAnalyzer.calculateMoveAccuracy`: the switch over the optional move
classification, with the default branch returning 80. -/
def calculateMoveAccuracy : Option MoveClass → Nat
  | some .excellent => 100
  | some .good => 90
  | some .inaccuracy => 70
  | some .mistake => 50
  | some .blunder => 20
  | none => 80

/-- The accumulation of `totalAccuracy` and `moveCount` over the move list
in `GameAnalyzer.analyzeGame`. A player move contributes exactly when its
replay-plus-evaluation succeeds (`outcome mv = some c`; a thrown error is
caught and the move is pushed unanalyzed); opponent moves never contribute. -/
def accuracyStep (outcome : MoveRec → Option MoveClass)
    (playerColor : PlayerColor) (st : Nat × Nat) (mv : MoveRec) : Nat × Nat :=
  if isPlayerMove mv playerColor then
    match outcome mv with
    | some c => (st.1 + calculateMoveAccuracy (some c), st.2 + 1)
    | none => st
  else st

def accuracyFold (outcome : MoveRec → Option MoveClass)
    (playerColor : PlayerColor) (moves : List MoveRec) : Nat × Nat :=
  moves.foldl (accuracyStep outcome playerColor) (0, 0)

/-- `overallAccuracy` as computed at the end of `analyzeGame`:
`moveCount > 0 ? totalAccuracy / moveCount : 0`. -/
def overallAccuracy (outcome : MoveRec → Option MoveClass)
    (playerColor : PlayerColor) (moves : List MoveRec) : ℚ :=
  let st := accuracyFold outcome playerColor moves
  if st.2 > 0 then (st.1 : ℚ) / (st.2 : ℚ) else 0

/-- The per-move accuracy scores of the successfully evaluated player moves,
in game order. -/
def playerScores (outcome : MoveRec → Option MoveClass)
    (playerColor : PlayerColor) (moves : List MoveRec) : List Nat :=
  moves.filterMap
    (fun mv =>
      if isPlayerMove mv playerColor then
        (outcome mv).map (fun c => calculateMoveAccuracy (some c))
      else none)

end ChessCache

namespace ChessCache

/-- The uuid-keyed map built by the bulk SELECT agrees with the point SELECT
for every requested uuid. -/
theorem mget_getCachedAnalyses {α : Type} (t : AnalysisTable α) (u : String)
    (uuids : List String) (g : String) (hg : g ∈ uuids) :
    mget (getCachedAnalyses t u uuids) g = getCachedAnalysis t g u := by
  induction t with
  | nil => rfl
  | cons r t ih =>
    cases hp : (r.username == jsToLower u && uuids.contains r.game_uuid) with
    | false =>
      have hL : getCachedAnalyses (r :: t) u uuids = getCachedAnalyses t u uuids := by
        simp only [getCachedAnalyses, List.filter_cons, hp]
        simp
      have hq : (r.game_uuid == g && r.username == jsToLower u) = false := by
        by_cases hu : r.game_uuid = g
        · have hc : uuids.contains r.game_uuid = true := by
            rw [hu]
            exact List.elem_eq_true_of_mem hg
          cases hval : (r.username == jsToLower u) with
          | false => simp [hval]
          | true =>
            exfalso
            rw [hval, hc] at hp
            simp at hp
        · simp [hu]
      rw [hL, ih]
      simp only [getCachedAnalysis]
      rw [List.find?_cons_of_neg _ (by simp [hq])]
    | true =>
      have hL : getCachedAnalyses (r :: t) u uuids
          = (r.game_uuid, r.analysis_data) :: getCachedAnalyses t u uuids := by
        simp only [getCachedAnalyses, List.filter_cons, hp]
        simp
      have hn : r.username = jsToLower u := by
        cases hval : (r.username == jsToLower u) with
        | false =>
          rw [hval] at hp
          simp at hp
        | true => exact eq_of_beq hval
      rw [hL]
      by_cases hu : r.game_uuid = g
      · simp only [mget, getCachedAnalysis]
        rw [List.find?_cons_of_pos _ (by simp [hu]),
          List.find?_cons_of_pos _ (by simp [hu, hn])]
        rfl
      · simp only [mget, getCachedAnalysis]
        rw [List.find?_cons_of_neg _ (by simp [hu]),
          List.find?_cons_of_neg _ (by simp [hu])]
        exact ih

/-- A find over rows from which every row with game uuid `g` was removed
cannot produce a row with game uuid `g`. -/
theorem find?_filter_ne_uuid {α : Type} (t : AnalysisTable α) (g u' : String) :
    List.find? (fun r => r.game_uuid == g && r.username == u')
      (List.filter (fun q => q.game_uuid != g) t) = none := by
  rw [List.find?_eq_none]
  intro r hr
  have hne := List.of_mem_filter hr
  simp only [bne_iff_ne, ne_eq, decide_eq_true_eq] at hne
  simp [hne]

/-- Claim C1 fails on the code: the `analysis` table is keyed by
`game_uuid` alone (`game_uuid TEXT PRIMARY KEY`), so storing an analysis
for the same game under a second, differently-lowercased username replaces
the first record, and the first lookup then reports absent instead of the
originally stored record. -/
theorem claim_C1_counterexample :
    getCachedAnalysis
        (cacheAnalysis
          (cacheAnalysis ([] : AnalysisTable Nat) "g1" "alice" 1)
          "g1" "Bob" 2)
        "g1" "alice" = none
      ∧ jsToLower "alice" ≠ jsToLower "Bob" := by
  constructor
  · decide
  · decide

/-- Claim C1 (amended): analyses are keyed by the game uuid alone. After
`putAnalysis(g, u1, a1)` and then `putAnalysis(g, u2, a2)` with usernames
that differ after lowercasing, `getAnalysis(g, u2)` returns `a2` while
`getAnalysis(g, u1)` returns absent — the records do not coexist — and at
most one record is ever stored per game uuid, a repeated `putAnalysis` for
the same uuid overwriting the prior record rather than appending. -/
theorem claim_C1 {α : Type} (t : AnalysisTable α) (g u1 u2 : String)
    (a1 a2 : α) (h : jsToLower u1 ≠ jsToLower u2) :
    getCachedAnalysis (cacheAnalysis (cacheAnalysis t g u1 a1) g u2 a2) g u2
        = some a2
      ∧ getCachedAnalysis (cacheAnalysis (cacheAnalysis t g u1 a1) g u2 a2) g u1
        = none
      ∧ List.countP (fun r => r.game_uuid == g)
          (cacheAnalysis (cacheAnalysis t g u1 a1) g u2 a2) = 1 := by
  refine ⟨getCachedAnalysis_cacheAnalysis_self _ _ _ _, ?_, ?_⟩
  · have hne : (jsToLower u2 == jsToLower u1) = false := by
      simp only [beq_eq_false_iff_ne, ne_eq]
      exact fun hh => h hh.symm
    simp only [getCachedAnalysis, cacheAnalysis, insertOrReplaceAnalysis]
    rw [List.find?_cons_of_neg _ (by simp [hne])]
    rw [find?_filter_ne_uuid]
    rfl
  · exact countRows_cacheAnalysis_self _ _ _ _

theorem claim_C1_witness :
    jsToLower "alice" ≠ jsToLower "Bob"
      ∧ getCachedAnalysis
          (cacheAnalysis
            (cacheAnalysis ([] : AnalysisTable Nat) "g1" "alice" 1)
            "g1" "Bob" 2)
          "g1" "Bob" = some 2 :=
  ⟨by decide, (claim_C1 [] "g1" "alice" "Bob" 1 2 (by decide)).1⟩

end ChessCache

namespace ChessCache

/-- Claim C6 fails on the code at the exact TTL boundary: the expiry check
of `getCachedUserProfile` is the strict `now > expiresAt`, so at
`now - storedAt = USER_PROFILE_TTL` (where the claim demands absence) the
stored profile is still returned. -/
theorem claim_C6_counterexample :
    (getCachedUserProfile
        (cacheUserProfile ([] : List (String × CacheEntry Nat)) "u" 42 0)
        "u" 3600000).1 = some 42
      ∧ 3600000 - 0 ≥ USER_PROFILE_TTL := by
  constructor
  · decide
  · decide

/-- Claim C6 (amended): for every username, the profile-cache read returns
absent exactly when no entry exists under the lowercased username or when
`now - storedAt` STRICTLY exceeds `TTL_PROFILE` (one hour); on
expiry-driven absence the stale entry is deleted from the cache; in every
other case (including `now - storedAt = TTL_PROFILE` exactly) the stored
profile is returned unchanged with the cache untouched. Entries are
well-formed in the sense established by `cacheUserProfile`:
`expiresAt = storedAt + TTL_PROFILE`. -/
theorem claim_C6 {α : Type} (c : List (String × CacheEntry α)) (u : String)
    (now : Nat)
    (hwf : ∀ kv ∈ c, (kv.2).expiresAt = (kv.2).timestamp + USER_PROFILE_TTL) :
    ((getCachedUserProfile c u now).1 = none ↔
        mget c (jsToLower u) = none ∨
          ∃ e, mget c (jsToLower u) = some e
            ∧ now - e.timestamp > USER_PROFILE_TTL)
      ∧ (∀ e, mget c (jsToLower u) = some e →
          now - e.timestamp > USER_PROFILE_TTL →
          getCachedUserProfile c u now = (none, mdel c (jsToLower u)))
      ∧ (∀ e, mget c (jsToLower u) = some e →
          now - e.timestamp ≤ USER_PROFILE_TTL →
          getCachedUserProfile c u now = (some e.data, c)) := by
  refine ⟨⟨?_, ?_⟩, ?_, ?_⟩
  · intro hnone
    cases hm : mget c (jsToLower u) with
    | none => exact Or.inl rfl
    | some e =>
      right
      refine ⟨e, rfl, ?_⟩
      have he := hwf _ (mget_mem hm)
      simp only at he
      by_cases hgt : now > e.expiresAt
      · omega
      · exfalso
        simp [getCachedUserProfile, hm, if_neg hgt] at hnone
  · rintro (h1 | ⟨e, hm, hgt'⟩)
    · simp [getCachedUserProfile, h1]
    · have he := hwf _ (mget_mem hm)
      simp only at he
      have hgt : now > e.expiresAt := by omega
      simp [getCachedUserProfile, hm, if_pos hgt]
  · intro e hm hgt'
    have he := hwf _ (mget_mem hm)
    simp only at he
    have hgt : now > e.expiresAt := by omega
    simp [getCachedUserProfile, hm, if_pos hgt]
  · intro e hm hle
    have he := hwf _ (mget_mem hm)
    simp only at he
    have hgt : ¬ now > e.expiresAt := by omega
    simp [getCachedUserProfile, hm, if_neg hgt]

theorem claim_C6_witness :
    getCachedUserProfile [("u", (⟨7, 0, 3600000⟩ : CacheEntry Nat))] "u" 4000000
      = (none, mdel [("u", (⟨7, 0, 3600000⟩ : CacheEntry Nat))] "u") :=
  (claim_C6 [("u", ⟨7, 0, 3600000⟩)] "u" 4000000 (by decide)).2.1
    ⟨7, 0, 3600000⟩ (by decide) (by decide)

/-- Claim C7: usernames are lowercased in every cache key (analysis,
profile, monthly-batch and game keys) while game uuids are used verbatim,
so for two usernames equal up to letter case every read and write addresses
the same entries; in particular an analysis stored under one casing is
returned by the point lookup and by the bulk lookup under the other
casing. -/
theorem claim_C7 {α β : Type} (t : AnalysisTable α) (g : String) (a : α)
    (c : List (String × CacheEntry β)) (p : β) (gt : List GameRow)
    (gm : CCGame) (epochToYM : Nat → Nat × Nat) (uuids : List String)
    (y m now : Nat) (u1 u2 : String) (h : jsToLower u1 = jsToLower u2) :
    cacheAnalysis t g u1 a = cacheAnalysis t g u2 a
      ∧ getCachedAnalysis t g u1 = getCachedAnalysis t g u2
      ∧ getCachedAnalyses t u1 uuids = getCachedAnalyses t u2 uuids
      ∧ getCachedAnalysis (cacheAnalysis t g u1 a) g u2 = some a
      ∧ (g ∈ uuids →
          mget (getCachedAnalyses (cacheAnalysis t g u1 a) u2 uuids) g = some a)
      ∧ monthlyKey u1 y m = monthlyKey u2 y m
      ∧ cacheUserProfile c u1 p now = cacheUserProfile c u2 p now
      ∧ getCachedUserProfile c u1 now = getCachedUserProfile c u2 now
      ∧ cacheGame epochToYM gt gm u1 now = cacheGame epochToYM gt gm u2 now := by
  have h4 : getCachedAnalysis (cacheAnalysis t g u1 a) g u2 = some a := by
    rw [show cacheAnalysis t g u1 a = cacheAnalysis t g u2 a by
      simp [cacheAnalysis, h]]
    exact getCachedAnalysis_cacheAnalysis_self _ _ _ _
  refine ⟨by simp [cacheAnalysis, h], by simp [getCachedAnalysis, h],
    by simp [getCachedAnalyses, h], h4, ?_, by simp [monthlyKey, h],
    by simp [cacheUserProfile, h], by simp [getCachedUserProfile, h],
    by simp [cacheGame, h]⟩
  intro hguu
  rw [mget_getCachedAnalyses _ _ _ _ hguu]
  exact h4

theorem claim_C7_witness :
    jsToLower "Alice" = jsToLower "alice"
      ∧ getCachedAnalysis
          (cacheAnalysis ([] : AnalysisTable Nat) "g1" "Alice" 5) "g1" "alice"
          = some 5
      ∧ mget
          (getCachedAnalyses
            (cacheAnalysis ([] : AnalysisTable Nat) "g1" "Alice" 5)
            "alice" ["g1"]) "g1" = some 5 := by
  have hc := claim_C7 ([] : AnalysisTable Nat) "g1" 5
    ([] : List (String × CacheEntry Nat)) 0 [] ⟨"g1", 0, ""⟩ (fun _ => (0, 0))
    ["g1"] 2024 5 0 "Alice" "alice" (by decide)
  exact ⟨by decide, hc.2.2.2.1, hc.2.2.2.2.1 (by decide)⟩

end ChessCache

namespace ChessCache

/-- Claim C5: the TTL class of a cached monthly batch is decided at read
time against the calendar month current at the read. An entry for the
current month aged beyond `TTL_CURRENT_MONTH` (five minutes) is expired —
removed and reported absent — even while still under `TTL_PAST_MONTH`
(24 hours), whereas an entry for a past month with the same age is still
served from the cache unchanged. -/
theorem claim_C5 (c : List (String × CacheEntry (List CCGame))) (u : String)
    (y m : Nat) (games : List CCGame) (t now curY curM : Nat) :
    (y = curY ∧ m = curM → now > t + CURRENT_MONTH_TTL →
      now < t + MONTHLY_GAMES_TTL →
      getCachedMonthlyGames (cacheMonthlyGames c u y m games t) u y m now
          curY curM
          = (none, mdel (cacheMonthlyGames c u y m games t) (monthlyKey u y m))
        ∧ mget ((getCachedMonthlyGames (cacheMonthlyGames c u y m games t)
            u y m now curY curM).2) (monthlyKey u y m) = none)
      ∧ (¬(y = curY ∧ m = curM) → now > t + CURRENT_MONTH_TTL →
        now < t + MONTHLY_GAMES_TTL →
        getCachedMonthlyGames (cacheMonthlyGames c u y m games t) u y m now
          curY curM
          = (some games, cacheMonthlyGames c u y m games t)) := by
  have hmg : mget (cacheMonthlyGames c u y m games t) (monthlyKey u y m)
      = some ⟨games, t, t + MONTHLY_GAMES_TTL⟩ := mget_mset_self _ _ _
  constructor
  · intro hcur hgt _
    have hres : getCachedMonthlyGames (cacheMonthlyGames c u y m games t)
        u y m now curY curM
        = (none, mdel (cacheMonthlyGames c u y m games t)
            (monthlyKey u y m)) := by
      simp only [getCachedMonthlyGames, hmg, if_pos hcur]
      rw [if_pos]
      exact hgt
    exact ⟨hres, by rw [hres]; exact mget_mdel_self _ _⟩
  · intro hcur hgt hlt
    simp only [getCachedMonthlyGames, hmg, if_neg hcur]
    rw [if_neg]
    omega

theorem claim_C5_witness :
    getCachedMonthlyGames (cacheMonthlyGames [] "u" 2024 5 [] 0) "u" 2024 5
        300001 2024 5
        = (none, mdel (cacheMonthlyGames [] "u" 2024 5 [] 0)
            (monthlyKey "u" 2024 5))
      ∧ getCachedMonthlyGames (cacheMonthlyGames [] "u" 2024 4 [] 0) "u" 2024 4
        300001 2024 5
        = (some [], cacheMonthlyGames [] "u" 2024 4 [] 0) :=
  ⟨((claim_C5 [] "u" 2024 5 [] 0 300001 2024 5).1 ⟨rfl, rfl⟩ (by decide)
      (by decide)).1,
    (claim_C5 [] "u" 2024 4 [] 0 300001 2024 5).2 (by decide) (by decide)
      (by decide)⟩

/-- Claim C9 fails on the code for the ephemeral monthly cache: the scoped
clear deletes every entry whose key merely STARTS WITH the lowercased
username, so clearing user `bob` also removes the monthly batch of the
distinct user `bobby`. -/
theorem claim_C9_counterexample :
    (mget (cacheMonthlyGames (cacheMonthlyGames [] "bobby" 2024 1 [] 0)
        "bob" 2024 1 [] 0) (monthlyKey "bobby" 2024 1)).isSome = true
      ∧ mget (clearMonthlyGamesCache
          (cacheMonthlyGames (cacheMonthlyGames [] "bobby" 2024 1 [] 0)
            "bob" 2024 1 [] 0) (some "bob")) (monthlyKey "bobby" 2024 1)
        = none
      ∧ jsToLower "bobby" ≠ jsToLower "bob" := by
  refine ⟨by decide, by decide, by decide⟩

/-- Claim C9 (amended): the scoped clears of the durable games and analyses
stores delete exactly the rows whose stored lowercased username equals the
lowercasing of the argument, leaving every other row unchanged; the scoped
clear of the ephemeral monthly cache instead deletes exactly the entries
whose key string starts with the lowercased argument — which covers all of
the own entries of that user but can also remove entries of a different user
whose key extends it (for example clearing `bob` also removes entries of
`bobby`). Called with no argument, each clear deletes all entries, and no
form errors when nothing matches. -/
theorem claim_C9 {α : Type} (gt : List GameRow) (ta : AnalysisTable α)
    (mc : List (String × CacheEntry (List CCGame))) (u : String) :
    (∀ r : GameRow,
        r ∈ clearGameCache gt (some u) ↔ r ∈ gt ∧ r.username ≠ jsToLower u)
      ∧ (∀ r : AnalysisRow α,
          r ∈ clearAnalysisCache ta (some u)
            ↔ r ∈ ta ∧ r.username ≠ jsToLower u)
      ∧ (∀ p : String × CacheEntry (List CCGame),
          p ∈ clearMonthlyGamesCache mc (some u)
            ↔ p ∈ mc ∧ jsStartsWith p.1 (jsToLower u) = false)
      ∧ (∀ y m : Nat, jsStartsWith (monthlyKey u y m) (jsToLower u) = true →
          mget (clearMonthlyGamesCache mc (some u)) (monthlyKey u y m) = none)
      ∧ clearGameCache gt none = []
      ∧ clearAnalysisCache ta none = []
      ∧ clearMonthlyGamesCache mc none = [] := by
  refine ⟨?_, ?_, ?_, ?_, rfl, rfl, rfl⟩
  · intro r
    simp [clearGameCache, List.mem_filter, bne_iff_ne]
  · intro r
    simp [clearAnalysisCache, List.mem_filter, bne_iff_ne]
  · intro p
    simp [clearMonthlyGamesCache, List.mem_filter, Bool.not_eq_true']
  · intro y m hsw
    have hfind : List.find? (fun p => p.1 == monthlyKey u y m)
        (clearMonthlyGamesCache mc (some u)) = none := by
      rw [List.find?_eq_none]
      intro p hp
      have hmem := List.of_mem_filter
        (p := fun (q : String × CacheEntry (List CCGame)) =>
          !(jsStartsWith q.1 (jsToLower u))) hp
      simp only [Bool.not_eq_true'] at hmem
      intro hbeq
      have hpk : p.1 = monthlyKey u y m := by
        simpa using hbeq
      rw [hpk, hsw] at hmem
      exact absurd hmem (by simp)
    simp [mget, hfind]

end ChessCache

namespace ChessCache

theorem claim_C9_witness :
    mget (clearMonthlyGamesCache
        [(monthlyKey "Alice" 2024 5, (⟨[], 0, 0⟩ : CacheEntry (List CCGame)))]
        (some "Alice")) (monthlyKey "Alice" 2024 5) = none :=
  (claim_C9 [] ([] : AnalysisTable Nat)
      [(monthlyKey "Alice" 2024 5, ⟨[], 0, 0⟩)] "Alice").2.2.2.1 2024 5
    (by decide)

/-! ### Behaviour of the handler loop -/

theorem processGame_hit {α β : Type} (parse : CCGame → Option β)
    (analyze : β → Option α) (u : String) (cmap : String → Option α)
    (st : LoopState α) (raw : CCGame) (g : β) (a : α)
    (hp : parse raw = some g) (hc : cmap raw.uuid = some a) :
    processGame parse analyze u cmap st raw
      = { st with analyses := st.analyses ++ [a],
                  cachedCount := st.cachedCount + 1 } := by
  simp [processGame, hp, hc]

theorem processGame_miss {α β : Type} (parse : CCGame → Option β)
    (analyze : β → Option α) (u : String) (cmap : String → Option α)
    (st : LoopState α) (raw : CCGame) (g : β) (a : α)
    (hp : parse raw = some g) (hc : cmap raw.uuid = none)
    (ha : analyze g = some a) :
    processGame parse analyze u cmap st raw
      = { st with analyses := st.analyses ++ [a],
                  analyzedCount := st.analyzedCount + 1,
                  computed := st.computed ++ [raw.uuid],
                  table := cacheAnalysis st.table raw.uuid u a } := by
  simp [processGame, hp, hc, ha]

theorem processGame_fail {α β : Type} (parse : CCGame → Option β)
    (analyze : β → Option α) (u : String) (cmap : String → Option α)
    (st : LoopState α) (raw : CCGame)
    (h : parse raw = none
      ∨ ∃ g, parse raw = some g ∧ cmap raw.uuid = none ∧ analyze g = none) :
    processGame parse analyze u cmap st raw = st := by
  rcases h with h | ⟨g, hp, hc, ha⟩
  · simp [processGame, h]
  · simp [processGame, hp, hc, ha]

/-- Processing a list of games on which parsing and evaluation both succeed
appends one result per game in input order, invokes the evaluation exactly
on the cache misses in input order, and advances the two counters by the
number of misses and hits respectively. -/
theorem foldl_processGame_spec {α β : Type} (parse : CCGame → Option β)
    (analyze : β → Option α) (u : String) (cmap : String → Option α)
    (p : CCGame → β) (f : CCGame → α) :
    ∀ (games : List CCGame) (st : LoopState α),
      (∀ r ∈ games, parse r = some (p r)) →
      (∀ r ∈ games, analyze (p r) = some (f r)) →
      (games.foldl (processGame parse analyze u cmap) st).analyses
          = st.analyses ++ games.map (fun r => (cmap r.uuid).getD (f r))
        ∧ (games.foldl (processGame parse analyze u cmap) st).computed
          = st.computed
            ++ (games.filter (fun r => (cmap r.uuid).isNone)).map CCGame.uuid
        ∧ (games.foldl (processGame parse analyze u cmap) st).analyzedCount
          = st.analyzedCount + games.countP (fun r => (cmap r.uuid).isNone)
        ∧ (games.foldl (processGame parse analyze u cmap) st).cachedCount
          = st.cachedCount + games.countP (fun r => (cmap r.uuid).isSome) := by
  intro games
  induction games with
  | nil =>
    intro st _ _
    simp
  | cons r games ih =>
    intro st hparse hana
    have hp := hparse r (List.mem_cons_self _ _)
    have ha := hana r (List.mem_cons_self _ _)
    have hparse' := fun x hx => hparse x (List.mem_cons_of_mem _ hx)
    have hana' := fun x hx => hana x (List.mem_cons_of_mem _ hx)
    cases hc : cmap r.uuid with
    | some a =>
      rw [List.foldl_cons,
        processGame_hit parse analyze u cmap st r (p r) a hp hc]
      obtain ⟨h1, h2, h3, h4⟩ :=
        ih ({ st with
              analyses := st.analyses ++ [a],
              cachedCount := st.cachedCount + 1 }) hparse' hana'
      refine ⟨?_, ?_, ?_, ?_⟩
      · simp [h1, hc]
      · simp [h2, hc]
      · simp only [h3, List.countP_cons, hc]
        simp
      · simp only [h4, List.countP_cons, hc]
        simp
        omega
    | none =>
      rw [List.foldl_cons,
        processGame_miss parse analyze u cmap st r (p r) (f r) hp hc ha]
      obtain ⟨h1, h2, h3, h4⟩ :=
        ih ({ st with
              analyses := st.analyses ++ [f r],
              analyzedCount := st.analyzedCount + 1,
              computed := st.computed ++ [r.uuid],
              table := cacheAnalysis st.table r.uuid u (f r) }) hparse' hana'
      refine ⟨?_, ?_, ?_, ?_⟩
      · simp [h1, hc]
      · simp [h2, hc]
      · simp only [h3, List.countP_cons, hc]
        simp
        omega
      · simp only [h4, List.countP_cons, hc]
        simp

theorem getCachedAnalysis_processGame_preserve {α β : Type}
    (parse : CCGame → Option β) (analyze : β → Option α) (u : String)
    (cmap : String → Option α) (st : LoopState α) (raw : CCGame)
    (q u' : String) (h : raw.uuid ≠ q) :
    getCachedAnalysis ((processGame parse analyze u cmap st raw).table) q u'
      = getCachedAnalysis st.table q u' := by
  cases hp : parse raw with
  | none => rw [processGame_fail parse analyze u cmap st raw (Or.inl hp)]
  | some g =>
    cases hc : cmap raw.uuid with
    | some a => rw [processGame_hit parse analyze u cmap st raw g a hp hc]
    | none =>
      cases ha : analyze g with
      | none =>
        rw [processGame_fail parse analyze u cmap st raw
          (Or.inr ⟨g, hp, hc, ha⟩)]
      | some a =>
        rw [processGame_miss parse analyze u cmap st raw g a hp hc ha]
        exact getCachedAnalysis_cacheAnalysis_ne _ _ _ _ (fun hh => h hh.symm)

theorem getCachedAnalysis_foldl_preserve {α β : Type}
    (parse : CCGame → Option β) (analyze : β → Option α) (u : String)
    (cmap : String → Option α) :
    ∀ (games : List CCGame) (st : LoopState α) (q u' : String),
      (∀ r ∈ games, r.uuid ≠ q) →
      getCachedAnalysis
          ((games.foldl (processGame parse analyze u cmap) st).table) q u'
        = getCachedAnalysis st.table q u' := by
  intro games
  induction games with
  | nil =>
    intro st q u' _
    rfl
  | cons r games ih =>
    intro st q u' hne
    rw [List.foldl_cons,
      ih _ q u' (fun x hx => hne x (List.mem_cons_of_mem _ hx)),
      getCachedAnalysis_processGame_preserve parse analyze u cmap st r q u'
        (hne r (List.mem_cons_self _ _))]

end ChessCache

namespace ChessCache

/-- Claim C2: over a batch in which every game parses and every evaluation
succeeds, the handler loop invokes the move-by-move evaluation exactly once
per cache miss, in the order the misses appear in the input list, invokes
it for no hit, and returns one analysis per input game in the original
input order, hits and fresh results interleaved by that order. -/
theorem claim_C2 {α β : Type} (parse : CCGame → Option β)
    (analyze : β → Option α) (u : String) (t0 : AnalysisTable α)
    (rawGames : List CCGame) (p : CCGame → β) (f : CCGame → α)
    (hparse : ∀ r ∈ rawGames, parse r = some (p r))
    (hana : ∀ r ∈ rawGames, analyze (p r) = some (f r)) :
    (runAnalyzeLoop parse analyze u t0 rawGames).computed
        = (rawGames.filter
            (fun r => (getCachedAnalysis t0 r.uuid u).isNone)).map CCGame.uuid
      ∧ (runAnalyzeLoop parse analyze u t0 rawGames).analyses
        = rawGames.map (fun r => (getCachedAnalysis t0 r.uuid u).getD (f r))
      ∧ (runAnalyzeLoop parse analyze u t0 rawGames).analyses.length
        = rawGames.length := by
  have hbridge : ∀ r ∈ rawGames,
      mget (getCachedAnalyses t0 u (rawGames.map CCGame.uuid)) r.uuid
        = getCachedAnalysis t0 r.uuid u :=
    fun r hr => mget_getCachedAnalyses t0 u _ r.uuid (List.mem_map_of_mem _ hr)
  obtain ⟨h1, h2, _, _⟩ := foldl_processGame_spec parse analyze u
    (fun g => mget (getCachedAnalyses t0 u (rawGames.map CCGame.uuid)) g)
    p f rawGames ⟨[], t0, [], 0, 0⟩ hparse hana
  have hrun : runAnalyzeLoop parse analyze u t0 rawGames
      = rawGames.foldl
          (processGame parse analyze u
            (fun g => mget (getCachedAnalyses t0 u (rawGames.map CCGame.uuid)) g))
          ⟨[], t0, [], 0, 0⟩ := rfl
  refine ⟨?_, ?_, ?_⟩
  · rw [hrun, h2, List.nil_append]
    exact congrArg (List.map CCGame.uuid)
      (List.filter_congr (fun r hr => congrArg Option.isNone (hbridge r hr)))
  · rw [hrun, h1, List.nil_append]
    exact List.map_congr_left
      (fun r hr => by rw [hbridge r hr])
  · rw [hrun, h1, List.nil_append, List.length_map]

theorem claim_C2_witness :
    (runAnalyzeLoop (fun r => some r) (fun g => some g.uuid) "bob"
        [⟨"g1", "bob", "a1"⟩, ⟨"g3", "bob", "a3"⟩]
        [⟨"g1", 0, ""⟩, ⟨"g2", 0, ""⟩, ⟨"g3", 0, ""⟩, ⟨"g4", 0, ""⟩,
          ⟨"g5", 0, ""⟩]).computed
      = ["g2", "g4", "g5"]
      ∧ (runAnalyzeLoop (fun r => some r) (fun g => some g.uuid) "bob"
          [⟨"g1", "bob", "a1"⟩, ⟨"g3", "bob", "a3"⟩]
          [⟨"g1", 0, ""⟩, ⟨"g2", 0, ""⟩, ⟨"g3", 0, ""⟩, ⟨"g4", 0, ""⟩,
            ⟨"g5", 0, ""⟩]).analyses
        = ["a1", "g2", "a3", "g4", "g5"] := by
  have h := claim_C2 (fun r => some r) (fun g => some g.uuid) "bob"
    [⟨"g1", "bob", "a1"⟩, ⟨"g3", "bob", "a3"⟩]
    [⟨"g1", 0, ""⟩, ⟨"g2", 0, ""⟩, ⟨"g3", 0, ""⟩, ⟨"g4", 0, ""⟩, ⟨"g5", 0, ""⟩]
    id CCGame.uuid (by decide) (by decide)
  exact ⟨h.1.trans (by decide), h.2.1.trans (by decide)⟩

/-- Claim C3: the handler loop writes each freshly computed analysis to the
durable store immediately, before the next game is processed; hence when
the evaluation throws on a later miss, every miss processed before it is
already persisted and retrievable by a direct point lookup afterwards. -/
theorem claim_C3 {α β : Type} (parse : CCGame → Option β)
    (analyze : β → Option α) (u : String) (t0 : AnalysisTable α)
    (pre : List CCGame) (rbad : CCGame) (p : CCGame → β) (f : CCGame → α)
    (hparse : ∀ r ∈ pre, parse r = some (p r))
    (hana : ∀ r ∈ pre, analyze (p r) = some (f r))
    (hbad : parse rbad = none
      ∨ (parse rbad = some (p rbad)
          ∧ getCachedAnalysis t0 rbad.uuid u = none
          ∧ analyze (p rbad) = none))
    (hnodup : ((pre ++ [rbad]).map CCGame.uuid).Nodup) :
    ∀ r ∈ pre, getCachedAnalysis t0 r.uuid u = none →
      getCachedAnalysis
          ((runAnalyzeLoop parse analyze u t0 (pre ++ [rbad])).table) r.uuid u
        = some (f r) := by
  intro r hr hmiss
  have hbridge : ∀ x ∈ pre ++ [rbad],
      mget (getCachedAnalyses t0 u ((pre ++ [rbad]).map CCGame.uuid)) x.uuid
        = getCachedAnalysis t0 x.uuid u :=
    fun x hx => mget_getCachedAnalyses t0 u _ x.uuid (List.mem_map_of_mem _ hx)
  have hrun : runAnalyzeLoop parse analyze u t0 (pre ++ [rbad])
      = (pre ++ [rbad]).foldl
          (processGame parse analyze u
            (fun g =>
              mget (getCachedAnalyses t0 u ((pre ++ [rbad]).map CCGame.uuid)) g))
          ⟨[], t0, [], 0, 0⟩ := rfl
  rw [hrun]
  obtain ⟨l1, l2, rfl⟩ := List.append_of_mem hr
  have hsplit : (l1 ++ r :: l2) ++ [rbad] = l1 ++ r :: (l2 ++ [rbad]) := by
    simp
  rw [hsplit, List.foldl_append, List.foldl_cons]
  have hparser : parse r = some (p r) := hparse r (by simp)
  have hanar : analyze (p r) = some (f r) := hana r (by simp)
  have hcr :
      mget (getCachedAnalyses t0 u ((l1 ++ r :: l2 ++ [rbad]).map CCGame.uuid))
        r.uuid = none := by
    rw [hbridge r (by simp)]
    exact hmiss
  rw [processGame_miss _ _ _ _ _ r (p r) (f r) hparser (by
    rw [show l1 ++ r :: l2 ++ [rbad] = l1 ++ r :: (l2 ++ [rbad]) by simp] at hcr
    exact hcr) hanar]
  have hnememap : r.uuid ∉ (l2 ++ [rbad]).map CCGame.uuid := by
    have h1 : ((l1 ++ r :: l2 ++ [rbad]).map CCGame.uuid).Nodup := hnodup
    rw [show l1 ++ r :: l2 ++ [rbad] = l1 ++ r :: (l2 ++ [rbad]) by simp] at h1
    rw [List.map_append, List.map_cons] at h1
    have h2 := h1.of_append_right
    exact (List.nodup_cons.1 h2).1
  have hne : ∀ x ∈ l2 ++ [rbad], x.uuid ≠ r.uuid := by
    intro x hx hxe
    exact hnememap (hxe ▸ List.mem_map_of_mem CCGame.uuid hx)
  rw [getCachedAnalysis_foldl_preserve _ _ _ _ (l2 ++ [rbad]) _ r.uuid u hne]
  exact getCachedAnalysis_cacheAnalysis_self _ _ _ _

theorem claim_C3_witness :
    getCachedAnalysis
        ((runAnalyzeLoop (fun r => some r)
          (fun g => if g.uuid == "g2" then none else some g.uuid) "bob"
          ([] : AnalysisTable String)
          [⟨"g1", 0, ""⟩, ⟨"g2", 0, ""⟩]).table) "g1" "bob"
      = some "g1" :=
  claim_C3 (fun r => some r)
    (fun g => if g.uuid == "g2" then none else some g.uuid) "bob" []
    [⟨"g1", 0, ""⟩] ⟨"g2", 0, ""⟩ id CCGame.uuid (by decide) (by decide)
    (Or.inr ⟨by decide, by decide, by decide⟩) (by decide)
    ⟨"g1", 0, ""⟩ (by decide) (by decide)

/-- Claim C8: when exactly one game of a batch fails to parse or evaluate,
the loop catches the failure, skips only that game, and returns one result
per remaining game — N-1 results for a batch of N — instead of failing the
whole batch. -/
theorem claim_C8 {α β : Type} (parse : CCGame → Option β)
    (analyze : β → Option α) (u : String) (t0 : AnalysisTable α)
    (pre post : List CCGame) (bad : CCGame) (p : CCGame → β) (f : CCGame → α)
    (hparse : ∀ r ∈ pre ++ post, parse r = some (p r))
    (hana : ∀ r ∈ pre ++ post, analyze (p r) = some (f r))
    (hbad : parse bad = none
      ∨ (parse bad = some (p bad)
          ∧ getCachedAnalysis t0 bad.uuid u = none
          ∧ analyze (p bad) = none)) :
    (runAnalyzeLoop parse analyze u t0 (pre ++ [bad] ++ post)).analyses
        = (pre ++ post).map
            (fun r => (getCachedAnalysis t0 r.uuid u).getD (f r))
      ∧ (runAnalyzeLoop parse analyze u t0 (pre ++ [bad] ++ post)).analyses.length
          + 1
        = (pre ++ [bad] ++ post).length := by
  have hbridge : ∀ x ∈ pre ++ [bad] ++ post,
      mget (getCachedAnalyses t0 u ((pre ++ [bad] ++ post).map CCGame.uuid))
          x.uuid
        = getCachedAnalysis t0 x.uuid u :=
    fun x hx => mget_getCachedAnalyses t0 u _ x.uuid (List.mem_map_of_mem _ hx)
  have hrun : runAnalyzeLoop parse analyze u t0 (pre ++ [bad] ++ post)
      = (pre ++ [bad] ++ post).foldl
          (processGame parse analyze u
            (fun g =>
              mget
                (getCachedAnalyses t0 u
                  ((pre ++ [bad] ++ post).map CCGame.uuid)) g))
          ⟨[], t0, [], 0, 0⟩ := rfl
  obtain ⟨h1pre, _, _, _⟩ := foldl_processGame_spec parse analyze u
    (fun g =>
      mget (getCachedAnalyses t0 u ((pre ++ [bad] ++ post).map CCGame.uuid)) g)
    p f pre ⟨[], t0, [], 0, 0⟩
    (fun x hx => hparse x (List.mem_append_left _ hx))
    (fun x hx => hana x (List.mem_append_left _ hx))
  have hbadstep : ∀ st : LoopState α,
      processGame parse analyze u
        (fun g =>
          mget (getCachedAnalyses t0 u ((pre ++ [bad] ++ post).map CCGame.uuid))
            g) st bad = st := by
    intro st
    refine processGame_fail _ _ _ _ _ _ ?_
    rcases hbad with h | ⟨hp, hm, ha⟩
    · exact Or.inl h
    · refine Or.inr ⟨p bad, hp, ?_, ha⟩
      rw [hbridge bad (by simp)]
      exact hm
  have hmain :
      (runAnalyzeLoop parse analyze u t0 (pre ++ [bad] ++ post)).analyses
        = (pre ++ post).map
            (fun r => (getCachedAnalysis t0 r.uuid u).getD (f r)) := by
    rw [hrun, List.foldl_append, List.foldl_append, List.foldl_cons,
      List.foldl_nil, hbadstep]
    obtain ⟨h1post, _, _, _⟩ := foldl_processGame_spec parse analyze u
      (fun g =>
        mget (getCachedAnalyses t0 u ((pre ++ [bad] ++ post).map CCGame.uuid))
          g)
      p f post (pre.foldl
        (processGame parse analyze u
          (fun g =>
            mget (getCachedAnalyses t0 u
              ((pre ++ [bad] ++ post).map CCGame.uuid)) g))
        ⟨[], t0, [], 0, 0⟩)
      (fun x hx => hparse x (List.mem_append_right _ hx))
      (fun x hx => hana x (List.mem_append_right _ hx))
    rw [h1post, h1pre, List.nil_append]
    rw [show (pre ++ post).map
          (fun r => (getCachedAnalysis t0 r.uuid u).getD (f r))
        = pre.map (fun r => (getCachedAnalysis t0 r.uuid u).getD (f r))
          ++ post.map (fun r => (getCachedAnalysis t0 r.uuid u).getD (f r))
      from List.map_append _ _ _]
    congr 1
    · exact List.map_congr_left (fun x hx => by
        rw [hbridge x (by simp [hx])])
    · exact List.map_congr_left (fun x hx => by
        rw [hbridge x (by simp [hx])])
  refine ⟨hmain, ?_⟩
  rw [hmain]
  simp
  omega

theorem claim_C8_witness :
    (runAnalyzeLoop (fun r => if r.uuid == "bad" then none else some r)
        (fun g => some g.uuid) "u" ([] : AnalysisTable String)
        [⟨"g1", 0, ""⟩, ⟨"bad", 0, ""⟩, ⟨"g3", 0, ""⟩]).analyses
      = ["g1", "g3"] := by
  have h := claim_C8 (fun r => if r.uuid == "bad" then none else some r)
    (fun g => some g.uuid) "u" ([] : AnalysisTable String)
    [⟨"g1", 0, ""⟩] [⟨"g3", 0, ""⟩] ⟨"bad", 0, ""⟩ id CCGame.uuid
    (by decide) (by decide) (Or.inl (by decide))
  exact h.1.trans (by decide)

end ChessCache

namespace ChessCache

/-- A find is unaffected by removing elements the predicate rejects. -/
theorem find?_filter_of_imp {γ : Type} (l : List γ) (pq keep : γ → Bool)
    (h : ∀ x, pq x = true → keep x = true) :
    List.find? pq (l.filter keep) = List.find? pq l := by
  induction l with
  | nil => rfl
  | cons x l ih =>
    cases hk : keep x with
    | false =>
      have hpq : pq x = false := by
        cases hpx : pq x with
        | false => rfl
        | true => rw [h x hpx] at hk; exact absurd hk (by simp)
      rw [List.filter_cons, if_neg (by simp [hk]),
        List.find?_cons_of_neg _ (by simp [hpq]), ih]
    | true =>
      rw [List.filter_cons, if_pos (by simp [hk])]
      cases hpx : pq x with
      | false =>
        rw [List.find?_cons_of_neg _ (by simp [hpx]),
          List.find?_cons_of_neg _ (by simp [hpx]), ih]
      | true =>
        rw [List.find?_cons_of_pos _ (by simp [hpx]),
          List.find?_cons_of_pos _ (by simp [hpx])]

theorem getCachedGame_cacheGame_self (epochToYM : Nat → Nat × Nat)
    (t : List GameRow) (g : CCGame) (u : String) (now : Nat) :
    getCachedGame (cacheGame epochToYM t g u now) g.uuid = some g := by
  simp [getCachedGame, cacheGame, List.find?]

theorem getCachedGame_cacheGame_ne (epochToYM : Nat → Nat × Nat)
    (t : List GameRow) (g : CCGame) (u : String) (now : Nat) {q : String}
    (hne : q ≠ g.uuid) :
    getCachedGame (cacheGame epochToYM t g u now) q = getCachedGame t q := by
  simp only [getCachedGame, cacheGame]
  rw [List.find?_cons_of_neg _ (by simp; exact fun hh => hne hh.symm)]
  rw [find?_filter_of_imp]
  intro x hx
  simp only [beq_iff_eq] at hx
  simp [hx]
  exact hne

theorem getCachedGame_cacheGames_preserve (epochToYM : Nat → Nat × Nat)
    (u : String) (now : Nat) :
    ∀ (games : List CCGame) (t : List GameRow) (q : String),
      (∀ y ∈ games, y.uuid ≠ q) →
      getCachedGame (cacheGames epochToYM t games u now) q
        = getCachedGame t q := by
  intro games
  induction games with
  | nil =>
    intro t q _
    rfl
  | cons x gs ih =>
    intro t q hne
    rw [show cacheGames epochToYM t (x :: gs) u now
        = cacheGames epochToYM (cacheGame epochToYM t x u now) gs u now
      from rfl]
    rw [ih _ q (fun y hy => hne y (List.mem_cons_of_mem _ hy)),
      getCachedGame_cacheGame_ne _ _ _ _ _
        (fun hh => hne x (List.mem_cons_self _ _) hh.symm)]

/-- After a bulk `cacheGames` of games with pairwise distinct uuids, every
one of them is retrievable from the durable store. -/
theorem getCachedGame_cacheGames (epochToYM : Nat → Nat × Nat) (u : String)
    (now : Nat) :
    ∀ (games : List CCGame) (t : List GameRow),
      (games.map CCGame.uuid).Nodup →
      ∀ g ∈ games,
        getCachedGame (cacheGames epochToYM t games u now) g.uuid = some g := by
  intro games
  induction games with
  | nil =>
    intro t _ g hg
    exact absurd hg (List.not_mem_nil _)
  | cons x gs ih =>
    intro t hnodup g hg
    rw [List.map_cons, List.nodup_cons] at hnodup
    rw [show cacheGames epochToYM t (x :: gs) u now
        = cacheGames epochToYM (cacheGame epochToYM t x u now) gs u now
      from rfl]
    rcases List.mem_cons.1 hg with rfl | hgs
    · rw [getCachedGame_cacheGames_preserve epochToYM u now gs _ g.uuid
        (fun y hy hne => hnodup.1 (hne ▸ List.mem_map_of_mem CCGame.uuid hy))]
      exact getCachedGame_cacheGame_self _ _ _ _ _
    · exact ih _ hnodup.2 g hgs

end ChessCache

namespace ChessCache

/-- Claim C4: for a key with no unexpired cached batch, `getMonthlyGames`
invokes the external source exactly once and, on success, writes the
fetched batch to the ephemeral monthly cache and every fetched game to the
durable per-game store before returning the batch; an immediately repeated
call is then served from the cache — identical result, no second external
invocation, no state change. -/
theorem claim_C4 (epochToYM : Nat → Nat × Nat) (s0 : SvcState) (u : String)
    (y m : Nat) (fetched fetched2 : List CCGame) (t1 t2 curY curM : Nat)
    (habsent : mget s0.monthly (monthlyKey u y m) = none)
    (h12 : t1 ≤ t2) (h2 : t2 ≤ t1 + CURRENT_MONTH_TTL)
    (hnodup : (fetched.map CCGame.uuid).Nodup) :
    (getMonthlyGames epochToYM s0 u y m fetched t1 curY curM).1 = fetched
      ∧ (getMonthlyGames epochToYM s0 u y m fetched t1 curY curM).2.2 = 1
      ∧ mget (getMonthlyGames epochToYM s0 u y m fetched t1 curY curM).2.1.monthly
          (monthlyKey u y m) = some ⟨fetched, t1, t1 + MONTHLY_GAMES_TTL⟩
      ∧ (∀ g ∈ fetched,
          getCachedGame
            (getMonthlyGames epochToYM s0 u y m fetched t1 curY curM).2.1.games
            g.uuid = some g)
      ∧ (getMonthlyGames epochToYM
          (getMonthlyGames epochToYM s0 u y m fetched t1 curY curM).2.1
          u y m fetched2 t2 curY curM).1 = fetched
      ∧ (getMonthlyGames epochToYM
          (getMonthlyGames epochToYM s0 u y m fetched t1 curY curM).2.1
          u y m fetched2 t2 curY curM).2.2 = 0
      ∧ (getMonthlyGames epochToYM
          (getMonthlyGames epochToYM s0 u y m fetched t1 curY curM).2.1
          u y m fetched2 t2 curY curM).2.1
        = (getMonthlyGames epochToYM s0 u y m fetched t1 curY curM).2.1 := by
  have hread1 : getCachedMonthlyGames s0.monthly u y m t1 curY curM
      = (none, s0.monthly) := by
    simp [getCachedMonthlyGames, habsent]
  have hcall1 : getMonthlyGames epochToYM s0 u y m fetched t1 curY curM
      = (fetched,
          ⟨cacheMonthlyGames s0.monthly u y m fetched t1,
            cacheGames epochToYM s0.games fetched u t1⟩, 1) := by
    simp [getMonthlyGames, hread1]
  have hmg2 : mget (cacheMonthlyGames s0.monthly u y m fetched t1)
      (monthlyKey u y m) = some ⟨fetched, t1, t1 + MONTHLY_GAMES_TTL⟩ :=
    mget_mset_self _ _ _
  have hread2 : getCachedMonthlyGames
      (cacheMonthlyGames s0.monthly u y m fetched t1) u y m t2 curY curM
      = (some fetched, cacheMonthlyGames s0.monthly u y m fetched t1) := by
    simp only [getCachedMonthlyGames, hmg2]
    by_cases hcur : y = curY ∧ m = curM
    · rw [if_pos hcur, if_neg]
      show ¬ t2 > t1 + CURRENT_MONTH_TTL
      omega
    · rw [if_neg hcur, if_neg]
      show ¬ t2 > t1 + MONTHLY_GAMES_TTL
      simp only [CURRENT_MONTH_TTL] at h2
      simp only [MONTHLY_GAMES_TTL]
      omega
  have hcall2 : getMonthlyGames epochToYM
      ⟨cacheMonthlyGames s0.monthly u y m fetched t1,
        cacheGames epochToYM s0.games fetched u t1⟩
      u y m fetched2 t2 curY curM
      = (fetched,
          ⟨cacheMonthlyGames s0.monthly u y m fetched t1,
            cacheGames epochToYM s0.games fetched u t1⟩, 0) := by
    simp [getMonthlyGames, hread2]
  refine ⟨by rw [hcall1], by rw [hcall1], ?_, ?_, ?_, ?_, ?_⟩
  · rw [hcall1]
    exact hmg2
  · intro g hg
    rw [hcall1]
    exact getCachedGame_cacheGames epochToYM u t1 fetched s0.games hnodup g hg
  · rw [hcall1, hcall2]
  · rw [hcall1, hcall2]
  · rw [hcall1, hcall2]

theorem claim_C4_witness :
    (getMonthlyGames (fun _ => (0, 0)) ⟨[], []⟩ "u" 2024 5 [⟨"g1", 0, ""⟩]
        0 2024 5).1 = [⟨"g1", 0, ""⟩]
      ∧ (getMonthlyGames (fun _ => (0, 0))
          (getMonthlyGames (fun _ => (0, 0)) ⟨[], []⟩ "u" 2024 5
            [⟨"g1", 0, ""⟩] 0 2024 5).2.1
          "u" 2024 5 [] 1 2024 5).2.2 = 0 := by
  have h := claim_C4 (fun _ => (0, 0)) ⟨[], []⟩ "u" 2024 5 [⟨"g1", 0, ""⟩] []
    0 1 2024 5 (by decide) (by decide) (by decide) (by decide)
  exact ⟨h.1, h.2.2.2.2.2.1⟩

end ChessCache

namespace ChessCache

/-- The accumulator of `analyzeGame` computes exactly the sum and the count
of the per-move accuracy scores of the successfully evaluated player
moves. -/
theorem accuracyFold_spec (outcome : MoveRec → Option MoveClass)
    (playerColor : PlayerColor) :
    ∀ (moves : List MoveRec) (init : Nat × Nat),
      moves.foldl (accuracyStep outcome playerColor) init
        = (init.1 + (playerScores outcome playerColor moves).sum,
            init.2 + (playerScores outcome playerColor moves).length) := by
  intro moves
  induction moves with
  | nil =>
    intro init
    simp [playerScores]
  | cons mv moves ih =>
    intro init
    rw [List.foldl_cons]
    by_cases hpm : isPlayerMove mv playerColor
    · cases ho : outcome mv with
      | none =>
        rw [show accuracyStep outcome playerColor init mv = init by
          simp [accuracyStep, hpm, ho]]
        rw [ih init]
        simp [playerScores, List.filterMap_cons, hpm, ho]
      | some c =>
        rw [show accuracyStep outcome playerColor init mv
            = (init.1 + calculateMoveAccuracy (some c), init.2 + 1) by
          simp [accuracyStep, hpm, ho]]
        rw [ih _]
        simp [playerScores, List.filterMap_cons, hpm, ho, Prod.mk.injEq]
        constructor
        · omega
        · omega
    · rw [show accuracyStep outcome playerColor init mv = init by
        simp [accuracyStep, hpm]]
      rw [ih init]
      simp [playerScores, List.filterMap_cons, hpm]

/-- Claim C10: the overall accuracy of `analyzeGame` always lies in
[0, 100]; it is the arithmetic mean of the per-move accuracy scores of the
successfully evaluated player moves, each score drawn from the fixed set
of values 100, 90, 80, 70, 50, 20 of `calculateMoveAccuracy`, and it is
exactly 0 when no player move was evaluated. -/
theorem claim_C10 (outcome : MoveRec → Option MoveClass)
    (playerColor : PlayerColor) (moves : List MoveRec) :
    0 ≤ overallAccuracy outcome playerColor moves
      ∧ overallAccuracy outcome playerColor moves ≤ 100
      ∧ (∀ s ∈ playerScores outcome playerColor moves,
          s ∈ [100, 90, 80, 70, 50, 20])
      ∧ (playerScores outcome playerColor moves = [] →
          overallAccuracy outcome playerColor moves = 0)
      ∧ (playerScores outcome playerColor moves ≠ [] →
          overallAccuracy outcome playerColor moves
            = ((playerScores outcome playerColor moves).sum : ℚ)
              / ((playerScores outcome playerColor moves).length : ℚ)) := by
  have hfold : accuracyFold outcome playerColor moves
      = ((playerScores outcome playerColor moves).sum,
          (playerScores outcome playerColor moves).length) := by
    rw [accuracyFold, accuracyFold_spec]
    rw [Prod.mk.injEq]
    omega
  have hmem : ∀ s ∈ playerScores outcome playerColor moves,
      s ∈ [100, 90, 80, 70, 50, 20] := by
    intro s hs
    rw [playerScores, List.mem_filterMap] at hs
    obtain ⟨mv, _, hmv⟩ := hs
    by_cases hpm : isPlayerMove mv playerColor
    · rw [if_pos hpm] at hmv
      cases ho : outcome mv with
      | none => rw [ho] at hmv; exact absurd hmv (by simp)
      | some c =>
        rw [ho] at hmv
        simp only [Option.map_some', Option.some_inj] at hmv
        cases c <;> simp [← hmv, calculateMoveAccuracy]
    · rw [if_neg hpm] at hmv
      exact absurd hmv (by simp)
  have hub : ∀ s ∈ playerScores outcome playerColor moves, s ≤ 100 := by
    intro s hs
    have := hmem s hs
    simp only [List.mem_cons, List.not_mem_nil, or_false] at this
    omega
  set scores := playerScores outcome playerColor moves with hscores
  have hA : overallAccuracy outcome playerColor moves
      = if scores.length > 0 then (scores.sum : ℚ) / (scores.length : ℚ)
        else 0 := by
    rw [overallAccuracy, hfold]
  by_cases hlen : scores.length > 0
  · have hlenQ : (0 : ℚ) < (scores.length : ℚ) := by
      exact_mod_cast hlen
    have hsum_le : scores.sum ≤ 100 * scores.length := by
      calc scores.sum ≤ scores.length * 100 :=
            List.sum_le_card_nsmul scores 100 hub
        _ = 100 * scores.length := by ring
    refine ⟨?_, ?_, hmem, ?_, ?_⟩
    · rw [hA, if_pos hlen]
      positivity
    · rw [hA, if_pos hlen]
      rw [div_le_iff₀ hlenQ]
      calc (scores.sum : ℚ) ≤ ((100 * scores.length : Nat) : ℚ) := by
            exact_mod_cast hsum_le
        _ = 100 * (scores.length : ℚ) := by push_cast; ring
    · intro hnil
      rw [hnil] at hlen
      exact absurd hlen (by simp)
    · intro _
      rw [hA, if_pos hlen]
  · have hlen0 : scores.length = 0 := by omega
    refine ⟨?_, ?_, hmem, ?_, ?_⟩
    · rw [hA, if_neg hlen]
    · rw [hA, if_neg hlen]
      norm_num
    · intro _
      rw [hA, if_neg hlen]
    · intro hne
      exact absurd (List.eq_nil_of_length_eq_zero hlen0) hne

theorem claim_C10_witness :
    overallAccuracy (fun _ => some MoveClass.good) PlayerColor.white [] = 0
      ∧ overallAccuracy (fun _ => some MoveClass.good) PlayerColor.white
          [⟨"e4", "", 1, true⟩]
        = ((playerScores (fun _ => some MoveClass.good) PlayerColor.white
            [⟨"e4", "", 1, true⟩]).sum : ℚ)
          / ((playerScores (fun _ => some MoveClass.good) PlayerColor.white
            [⟨"e4", "", 1, true⟩]).length : ℚ) :=
  ⟨(claim_C10 (fun _ => some MoveClass.good) PlayerColor.white []).2.2.2.1
      (by decide),
    (claim_C10 (fun _ => some MoveClass.good) PlayerColor.white
      [⟨"e4", "", 1, true⟩]).2.2.2.2 (by decide)⟩

end ChessCache
